import Mathlib

/-!
Shallow embedding of the core algorithms of `brew.py` (a standalone
Homebrew-bottle client) together with proofs about its documented behaviour.

Conventions used throughout:
* Python `dict[str, set[str]]` is embedded as an association list
  `List (String × List String)`; only membership of the value lists is ever
  relevant, matching Python set semantics.
* Python sets are embedded as `List String` with set operations expressed
  through `List.filter` / `List.union`; all statements are membership-based.
* Filesystem state is passed explicitly as a record of existing paths.
* Functions that `exit(1)` or raise are embedded as `Option`-valued
  functions returning `none` in that situation.
-/

namespace BrewPy

/-- Embedding of `TreeDict.direct : dict[str, set[str]]` (brew.py:1020). -/
abbrev TD := List (String × List String)

namespace TreeDict

/-- Embedding of `self.direct.get(key, set())` — total read of the dependency dict. -/
def dget (d : TD) (k : String) : List String := (d.lookup k).getD []

/-- The key list of the dict (`self.direct.keys()`). -/
def keys (d : TD) : List String := d.map Prod.fst

/-- Embedding of `dict.setdefault(key, set())` restricted to the empty default:
inserts `(k, [])` when `k` has no entry yet (brew.py:1031). -/
def setdefault (d : TD) (k : String) : TD :=
  if (d.lookup k).isSome then d else d ++ [(k, [])]

/-- Embedding of `rv.direct.setdefault(dep, set()).add(key)` (brew.py:1033): extend the
(first) entry of `k` by `v`, creating the entry if missing. -/
def dictAdd : TD → String → String → TD
  | [], k, v => [(k, [v])]
  | (k', vs) :: rest, k, v =>
    if k' = k then (k', vs ++ [v]) :: rest else (k', vs) :: dictAdd rest k v

/-- Embedding of `TreeDict.inverse` (brew.py:1027-1034): flip keys and values, keeping
every original key (with an empty value set when nothing maps to it). -/
def inverse (d : TD) : TD :=
  d.foldl
    (fun rv kd => kd.2.foldl (fun rv dep => dictAdd rv dep kd.1) (setdefault rv kd.1))
    []

/-- Embedding of `TreeDict.getAll` (brew.py:1045-1055) with an explicit recursion budget.
The Python version recurses through the dict (memoised); on the acyclic
graphs it is run on, any fuel above `d.length` computes the same set
(theorem `getAllFuel_correct`). -/
def getAllFuel (d : TD) : Nat → String → List String
  | 0, _ => []
  | fuel + 1, k =>
    (dget d k).foldl (fun rv x => rv ∪ ([x] ∪ getAllFuel d fuel x)) []

/-- Embedding of `TreeDict.getAll` at the always-sufficient budget. -/
def getAll (d : TD) (k : String) : List String := getAllFuel d (d.length + 1) k

/-- Embedding of `TreeDict.getLeaves` (brew.py:1036-1043): dead-end values only. -/
def getLeaves (d : TD) (k : String) : List String :=
  (getAll d k).filter (fun x => (dget d x).isEmpty)

/-- Embedding of `TreeDict.unionAll` (brew.py:1057-1060). -/
def unionAll (d : TD) (ks : List String) (inclInput : Bool := true) : List String :=
  let rv := ks.foldl (fun rv k => rv ∪ getAll d k) []
  if inclInput then rv ∪ ks else rv

/-- Embedding of `TreeDict.filterDifference` (brew.py:1062-1065): keep `k` whenever
`direct.get(k) \ other` is non-empty. -/
def filterDifference (d : TD) (ks other : List String) : List String :=
  ks.filter (fun k => !((dget d k).filter (fun x => !other.contains x)).isEmpty)

/-- Embedding of `TreeDict.filterIntersection` (brew.py:1067-1070): keep `k` whenever
`direct.get(k) ∩ other` is non-empty. -/
def filterIntersection (d : TD) (ks other : List String) : List String :=
  ks.filter (fun k => !((dget d k).filter (fun x => other.contains x)).isEmpty)

/-- Embedding of `TreeDict.missing` (brew.py:1072-1074): keys without a dict entry. -/
def missing (d : TD) (ks : List String) : List String :=
  ks.filter (fun k => (d.lookup k).isNone)

end TreeDict

section TreeDictLemmas

open TreeDict

theorem mem_foldl_union {α : Type} [DecidableEq α] (g : String → List α)
    (l : List String) (init : List α) (y : α) :
    y ∈ l.foldl (fun rv x => rv ∪ g x) init ↔ y ∈ init ∨ ∃ x ∈ l, y ∈ g x := by
  induction l generalizing init with
  | nil => simp
  | cons a t ih =>
    simp only [List.foldl_cons, ih, List.mem_union_iff, List.mem_cons]
    constructor
    · rintro (⟨h | h⟩ | ⟨x, hx, hy⟩)
      · exact Or.inl h
      · exact Or.inr ⟨a, Or.inl rfl, h⟩
      · exact Or.inr ⟨x, Or.inr hx, hy⟩
    · rintro (h | ⟨x, hx | hx, hy⟩)
      · exact Or.inl (Or.inl h)
      · exact Or.inl (Or.inr (hx ▸ hy))
      · exact Or.inr ⟨x, hx, hy⟩

theorem mem_getAllFuel_succ (d : TD) (fuel : Nat) (k : String) (y : String) :
    y ∈ getAllFuel d (fuel + 1) k ↔
      ∃ x ∈ dget d k, y = x ∨ y ∈ getAllFuel d fuel x := by
  simp only [getAllFuel, mem_foldl_union, List.not_mem_nil, false_or,
    List.mem_union_iff, List.mem_singleton]

theorem mem_unionAll (d : TD) (ks : List String) (y : String) :
    y ∈ unionAll d ks ↔ (∃ x ∈ ks, y ∈ getAll d x) ∨ y ∈ ks := by
  simp [unionAll, mem_foldl_union]

theorem unionAll_superset (d : TD) (ks : List String) (y : String) (hy : y ∈ ks) :
    y ∈ unionAll d ks := (mem_unionAll d ks y).mpr (Or.inr hy)

theorem mem_filterDifference (d : TD) (ks other : List String) (k : String) :
    k ∈ filterDifference d ks other ↔
      k ∈ ks ∧ ∃ x ∈ dget d k, x ∉ other := by
  simp only [filterDifference, List.mem_filter, Bool.not_eq_eq_eq_not,
    Bool.not_false, List.isEmpty_eq_false_iff_exists_mem]
  constructor
  · rintro ⟨hk, h⟩
    obtain ⟨x, hx⟩ := by simpa using h
    exact ⟨hk, x, hx.1, by simpa using hx.2⟩
  · rintro ⟨hk, x, hx, hnx⟩
    refine ⟨hk, by simp; exact ⟨x, hx, by simpa using hnx⟩⟩

theorem mem_filterIntersection (d : TD) (ks other : List String) (k : String) :
    k ∈ filterIntersection d ks other ↔
      k ∈ ks ∧ ∃ x ∈ dget d k, x ∈ other := by
  simp only [filterIntersection, List.mem_filter, Bool.not_eq_eq_eq_not,
    Bool.not_false, List.isEmpty_eq_false_iff_exists_mem]
  constructor
  · rintro ⟨hk, h⟩
    obtain ⟨x, hx⟩ := by simpa using h
    exact ⟨hk, x, hx.1, by simpa using hx.2⟩
  · rintro ⟨hk, x, hx, hnx⟩
    refine ⟨hk, by simp; exact ⟨x, hx, by simpa using hnx⟩⟩

theorem mem_missing (d : TD) (ks : List String) (k : String) :
    k ∈ missing d ks ↔ k ∈ ks ∧ d.lookup k = none := by
  simp [missing, List.mem_filter, Option.isNone_iff_eq_none]

end TreeDictLemmas

section Reachability

open TreeDict

/-- One dependency edge of the graph: `y` is a direct value of key `x`. -/
abbrev edge (d : TD) (x y : String) : Prop := y ∈ dget d x

/-- Transitive descendants: `y` reachable from `x` through at least one edge. -/
def Reaches (d : TD) : String → String → Prop := Relation.TransGen (edge d)

/-- The direct map has no cycle. -/
def Acyclic (d : TD) : Prop := ∀ k, ¬ Reaches d k k

/-- Embedding of `PathTo d k y l`: `l` lists the vertices visited after `k` on a concrete
edge path from `k` to `y` (so `l` ends in `y` and is non-empty). -/
inductive PathTo (d : TD) : String → String → List String → Prop
  | single {k y : String} : edge d k y → PathTo d k y [y]
  | cons {k x y : String} {l : List String} :
      edge d k x → PathTo d x y l → PathTo d k y (x :: l)

theorem pathTo_ne_nil {d : TD} {k y : String} {l : List String}
    (p : PathTo d k y l) : l ≠ [] := by
  cases p <;> simp

theorem pathTo_append {d : TD} {k y z : String} {l : List String}
    (p : PathTo d k y l) : edge d y z → PathTo d k z (l ++ [z]) := by
  induction p with
  | single h => exact fun e => .cons h (.single e)
  | cons h _ ih => exact fun e => .cons h (ih e)

theorem reaches_iff_pathTo {d : TD} {k y : String} :
    Reaches d k y ↔ ∃ l, PathTo d k y l := by
  constructor
  · intro h
    induction h with
    | single h => exact ⟨[_], .single h⟩
    | tail _ e ih => obtain ⟨l, p⟩ := ih; exact ⟨l ++ [_], pathTo_append p e⟩
  · rintro ⟨l, p⟩
    induction p with
    | single h => exact Relation.TransGen.single h
    | cons h _ ih => exact Relation.TransGen.head h ih

theorem pathTo_mem_reaches {d : TD} {k y x : String} {l : List String}
    (p : PathTo d k y l) (hx : x ∈ l) : Reaches d k x := by
  induction p with
  | single h =>
    rw [List.mem_singleton] at hx
    exact hx ▸ Relation.TransGen.single h
  | @cons k' x' y' l' h p' ih =>
    rcases List.mem_cons.mp hx with h' | h'
    · exact h' ▸ Relation.TransGen.single h
    · exact Relation.TransGen.head h (ih h')

theorem pathTo_suffix {d : TD} {k y x : String} {l₁ l₂ : List String}
    (p : PathTo d k y (l₁ ++ x :: l₂)) : (l₂ = [] ∧ x = y) ∨ PathTo d x y l₂ := by
  induction l₁ generalizing k with
  | nil =>
    rw [List.nil_append] at p
    cases p with
    | single h => exact Or.inl ⟨rfl, rfl⟩
    | cons h p' => exact Or.inr p'
  | cons a t ih =>
    rw [List.cons_append] at p
    generalize hm : t ++ x :: l₂ = m at p
    cases p with
    | single h => exact absurd hm (by simp)
    | cons h p' => exact ih (by rw [hm]; exact p')

theorem sublist_pair_split {a : String} {l : List String}
    (h : List.Sublist [a, a] l) : ∃ l₁ l₂, l = l₁ ++ a :: l₂ ∧ a ∈ l₂ := by
  induction l with
  | nil => simp at h
  | cons b t ih =>
    cases h with
    | cons _ h' =>
      obtain ⟨l₁, l₂, hl, ha⟩ := ih h'
      exact ⟨b :: l₁, l₂, by simp [hl], ha⟩
    | cons₂ _ h2 =>
      exact ⟨[], t, rfl, h2.subset (by simp)⟩

theorem pathTo_nodup {d : TD} (hac : Acyclic d) {k y : String} {l : List String}
    (p : PathTo d k y l) : l.Nodup := by
  by_contra hnd
  obtain ⟨x, hdup⟩ := List.exists_duplicate_iff_not_nodup.mpr hnd
  obtain ⟨l₁, l₂, hl, hx⟩ := sublist_pair_split (List.duplicate_iff_sublist.mp hdup)
  subst hl
  rcases pathTo_suffix p with ⟨h2, _⟩ | p'
  · simp [h2] at hx
  · exact hac x (pathTo_mem_reaches p' hx)

theorem pathTo_start_not_mem {d : TD} (hac : Acyclic d) {k y : String}
    {l : List String} (p : PathTo d k y l) : k ∉ l := fun hk =>
  hac k (pathTo_mem_reaches p hk)

theorem pathTo_dget_ne {d : TD} {x y : String} {l : List String}
    (p : PathTo d x y l) : dget d x ≠ [] := by
  cases p with
  | single h => exact List.ne_nil_of_mem h
  | cons h _ => exact List.ne_nil_of_mem h

theorem lookup_some_mem_keys {d : TD} {x : String} {v : List String}
    (h : d.lookup x = some v) : x ∈ keys d := by
  induction d with
  | nil => simp [List.lookup] at h
  | cons kd t ih =>
    rw [List.lookup_cons] at h
    by_cases hx : x == kd.1
    · simp only [keys, List.map_cons, List.mem_cons]
      exact Or.inl (by simpa using hx)
    · simp only [hx] at h
      · exact List.mem_cons_of_mem _ (ih (by simpa [hx] using h))

theorem dget_ne_mem_keys {d : TD} {x : String} (h : dget d x ≠ []) :
    x ∈ keys d := by
  unfold dget at h
  cases hl : d.lookup x with
  | none => simp [hl] at h
  | some v => exact lookup_some_mem_keys hl

theorem pathTo_dropLast_keys {d : TD} {k y : String} {l : List String}
    (p : PathTo d k y l) : ∀ x ∈ l.dropLast, x ∈ keys d := by
  induction p with
  | single h => simp
  | @cons k' x' y' l' h p' ih =>
    intro z hz
    rw [List.dropLast_cons_of_ne_nil (pathTo_ne_nil p'), List.mem_cons] at hz
    rcases hz with hz | hz
    · exact hz ▸ dget_ne_mem_keys (pathTo_dget_ne p')
    · exact ih z hz

theorem nodup_subset_length {l L : List String} (hnd : l.Nodup)
    (hsub : ∀ x ∈ l, x ∈ L) : l.length ≤ L.length := by
  calc l.length = l.toFinset.card := (List.toFinset_card_of_nodup hnd).symm
    _ ≤ L.toFinset.card := by
        apply Finset.card_le_card
        intro x hx
        rw [List.mem_toFinset] at hx ⊢
        exact hsub x hx
    _ ≤ L.length := List.toFinset_card_le L

theorem pathTo_length_le {d : TD} (hac : Acyclic d) {k y : String}
    {l : List String} (p : PathTo d k y l) : l.length ≤ d.length + 1 := by
  have hnd : l.dropLast.Nodup := (pathTo_nodup hac p).sublist (List.dropLast_sublist l)
  have hlen : l.dropLast.length ≤ (keys d).length :=
    nodup_subset_length hnd (pathTo_dropLast_keys p)
  have hk : (keys d).length = d.length := List.length_map _ _
  have hne : l ≠ [] := pathTo_ne_nil p
  have : l.dropLast.length = l.length - 1 := List.length_dropLast l
  have : 1 ≤ l.length := List.length_pos.mpr hne
  omega

theorem getAllFuel_sound {d : TD} {f : Nat} {k y : String}
    (h : y ∈ getAllFuel d f k) : Reaches d k y := by
  induction f generalizing k with
  | zero => simp [getAllFuel] at h
  | succ f ih =>
    rw [mem_getAllFuel_succ] at h
    obtain ⟨x, hx, rfl | hy⟩ := h
    · exact Relation.TransGen.single hx
    · exact Relation.TransGen.head hx (ih hy)

theorem pathTo_complete {d : TD} {k y : String} {l : List String}
    (p : PathTo d k y l) : ∀ f, l.length ≤ f → y ∈ getAllFuel d f k := by
  induction p with
  | @single k' y' h =>
    intro f hf
    match f, hf with
    | f + 1, _ => exact (mem_getAllFuel_succ d f _ y').mpr ⟨y', h, Or.inl rfl⟩
  | @cons k' x' y' l' h p' ih =>
    intro f hf
    match f, hf with
    | f + 1, hf =>
      refine (mem_getAllFuel_succ d f _ y').mpr ⟨x', h, Or.inr ?_⟩
      exact ih f (by simpa using Nat.le_of_succ_le_succ hf)

theorem getAllFuel_correct {d : TD} (hac : Acyclic d) {f : Nat}
    (hf : d.length + 1 ≤ f) (k y : String) :
    y ∈ getAllFuel d f k ↔ Reaches d k y := by
  constructor
  · exact getAllFuel_sound
  · intro h
    obtain ⟨l, p⟩ := reaches_iff_pathTo.mp h
    exact pathTo_complete p f (le_trans (pathTo_length_le hac p) hf)

theorem mem_getAll {d : TD} (hac : Acyclic d) (k y : String) :
    y ∈ getAll d k ↔ Reaches d k y :=
  getAllFuel_correct hac (le_refl _) k y

theorem acyclic_of_rank (d : TD) (r : String → Nat)
    (h : ∀ x y, y ∈ dget d x → r y < r x) : Acyclic d := by
  intro k hk
  suffices hmono : ∀ x y, Reaches d x y → r y < r x from lt_irrefl _ (hmono k k hk)
  intro x y hxy
  induction hxy with
  | single e => exact h _ _ e
  | tail _ e ih => exact lt_trans (h _ _ e) ih

end Reachability

section InverseLemmas

open TreeDict

theorem beq_false_of_ne {x y : String} (h : ¬x = y) : (x == y) = false :=
  beq_eq_false_iff_ne.mpr h

theorem dget_cons (k' : String) (vs : List String) (t : TD) (x : String) :
    dget ((k', vs) :: t) x = if x = k' then vs else dget t x := by
  by_cases hx : x = k'
  · subst hx; simp [dget, List.lookup_cons]
  · simp [dget, List.lookup_cons, beq_false_of_ne hx, hx]

theorem lookup_append (l₁ l₂ : TD) (x : String) :
    (l₁ ++ l₂).lookup x =
      match l₁.lookup x with
      | some v => some v
      | none => l₂.lookup x := by
  induction l₁ with
  | nil => simp
  | cons kd t ih =>
    obtain ⟨k, v⟩ := kd
    by_cases h : x = k
    · subst h; simp [List.lookup_cons]
    · simp [List.lookup_cons, beq_false_of_ne h, ih]

theorem dget_dictAdd (rv : TD) (a b x : String) :
    dget (dictAdd rv a b) x = if x = a then dget rv a ++ [b] else dget rv x := by
  induction rv with
  | nil =>
    by_cases hx : x = a
    · subst hx; simp [dictAdd, dget_cons, dget]
    · simp [dictAdd, dget_cons, hx]
  | cons kd t ih =>
    obtain ⟨k', vs⟩ := kd
    simp only [dictAdd]
    by_cases hk : k' = a
    · subst hk
      rw [if_pos rfl]
      by_cases hx : x = k'
      · subst hx; simp [dget_cons]
      · simp [dget_cons, hx]
    · rw [if_neg hk]
      by_cases hx : x = k'
      · subst hx
        simp [dget_cons, hk]
      · have hak : ¬a = k' := fun h => hk h.symm
        simp [dget_cons, hx, hak, ih]

theorem mem_keys_dictAdd (rv : TD) (a b x : String) :
    x ∈ keys (dictAdd rv a b) ↔ x ∈ keys rv ∨ x = a := by
  induction rv with
  | nil => simp [dictAdd, keys]
  | cons kd t ih =>
    obtain ⟨k', vs⟩ := kd
    simp only [dictAdd]
    by_cases hk : k' = a
    · subst hk
      rw [if_pos rfl]
      simp only [keys, List.map_cons, List.mem_cons]
      tauto
    · rw [if_neg hk]
      simp only [keys, List.map_cons, List.mem_cons] at ih ⊢
      rw [ih]
      tauto

theorem dget_setdefault (rv : TD) (k x : String) :
    dget (setdefault rv k) x = dget rv x := by
  unfold setdefault
  split
  · rfl
  · next hns =>
    unfold dget
    rw [lookup_append]
    cases hl : rv.lookup x with
    | some v => simp
    | none =>
      by_cases hx : x = k
      · subst hx
        simp [List.lookup_cons]
      · simp [List.lookup_cons, beq_false_of_ne hx]

theorem lookup_isSome_mem_keys {rv : TD} {k : String}
    (hs : (rv.lookup k).isSome) : k ∈ keys rv := by
  obtain ⟨v, hv⟩ := Option.isSome_iff_exists.mp hs
  exact lookup_some_mem_keys hv

theorem mem_keys_setdefault (rv : TD) (k x : String) :
    x ∈ keys (setdefault rv k) ↔ x ∈ keys rv ∨ x = k := by
  unfold setdefault
  split
  · next hs =>
    constructor
    · exact Or.inl
    · rintro (h | rfl)
      · exact h
      · exact lookup_isSome_mem_keys hs
  · simp [keys]

theorem mem_dget_innerFold (deps : List String) (key : String) (rv : TD)
    (x v : String) :
    v ∈ dget (deps.foldl (fun rv dep => dictAdd rv dep key) rv) x ↔
      v ∈ dget rv x ∨ (x ∈ deps ∧ v = key) := by
  induction deps generalizing rv with
  | nil => simp
  | cons a t ih =>
    rw [List.foldl_cons, ih, dget_dictAdd]
    by_cases hx : x = a
    · subst hx
      rw [if_pos rfl]
      simp only [List.mem_cons, List.mem_append, List.mem_singleton]
      tauto
    · rw [if_neg hx]
      simp only [List.mem_cons]
      tauto

theorem mem_keys_innerFold (deps : List String) (key : String) (rv : TD)
    (x : String) :
    x ∈ keys (deps.foldl (fun rv dep => dictAdd rv dep key) rv) ↔
      x ∈ keys rv ∨ x ∈ deps := by
  induction deps generalizing rv with
  | nil => simp
  | cons a t ih =>
    rw [List.foldl_cons, ih, mem_keys_dictAdd]
    simp only [List.mem_cons]
    tauto

theorem mem_dget_inverseAux (d : TD) (rv : TD) (x v : String) :
    v ∈ dget (d.foldl
        (fun rv kd => kd.2.foldl (fun rv dep => dictAdd rv dep kd.1)
          (setdefault rv kd.1)) rv) x ↔
      v ∈ dget rv x ∨ ∃ kd ∈ d, kd.1 = v ∧ x ∈ kd.2 := by
  induction d generalizing rv with
  | nil => simp
  | cons kd t ih =>
    rw [List.foldl_cons, ih, mem_dget_innerFold, dget_setdefault]
    simp only [List.mem_cons]
    constructor
    · rintro ((h | ⟨hx, rfl⟩) | ⟨kd', hkd', hv, hx⟩)
      · exact Or.inl h
      · exact Or.inr ⟨kd, Or.inl rfl, rfl, hx⟩
      · exact Or.inr ⟨kd', Or.inr hkd', hv, hx⟩
    · rintro (h | ⟨kd', rfl | hkd', hv, hx⟩)
      · exact Or.inl (Or.inl h)
      · exact Or.inl (Or.inr ⟨hx, hv.symm⟩)
      · exact Or.inr ⟨kd', hkd', hv, hx⟩

theorem mem_keys_inverseAux (d : TD) (rv : TD) (x : String) :
    x ∈ keys (d.foldl
        (fun rv kd => kd.2.foldl (fun rv dep => dictAdd rv dep kd.1)
          (setdefault rv kd.1)) rv) ↔
      x ∈ keys rv ∨ (∃ kd ∈ d, kd.1 = x) ∨ ∃ kd ∈ d, x ∈ kd.2 := by
  induction d generalizing rv with
  | nil => simp
  | cons kd t ih =>
    rw [List.foldl_cons, ih, mem_keys_innerFold, mem_keys_setdefault]
    simp only [List.mem_cons]
    constructor
    · rintro (((h | h) | h) | h | h)
      · exact Or.inl h
      · exact Or.inr (Or.inl ⟨kd, Or.inl rfl, h.symm⟩)
      · exact Or.inr (Or.inr ⟨kd, Or.inl rfl, h⟩)
      · obtain ⟨kd', hkd', hx⟩ := h
        exact Or.inr (Or.inl ⟨kd', Or.inr hkd', hx⟩)
      · obtain ⟨kd', hkd', hx⟩ := h
        exact Or.inr (Or.inr ⟨kd', Or.inr hkd', hx⟩)
    · rintro (h | ⟨kd', rfl | hkd', hx⟩ | ⟨kd', rfl | hkd', hx⟩)
      · exact Or.inl (Or.inl (Or.inl h))
      · exact Or.inl (Or.inl (Or.inr hx.symm))
      · exact Or.inr (Or.inl ⟨kd', hkd', hx⟩)
      · exact Or.inl (Or.inr hx)
      · exact Or.inr (Or.inr ⟨kd', hkd', hx⟩)

theorem mem_dget_inverse (d : TD) (x v : String) :
    v ∈ dget (inverse d) x ↔ ∃ kd ∈ d, kd.1 = v ∧ x ∈ kd.2 := by
  unfold inverse
  rw [mem_dget_inverseAux]
  simp [dget, List.lookup]

theorem mem_keys_inverse (d : TD) (x : String) :
    x ∈ keys (inverse d) ↔ (∃ kd ∈ d, kd.1 = x) ∨ ∃ kd ∈ d, x ∈ kd.2 := by
  unfold inverse
  rw [mem_keys_inverseAux]
  simp [keys]

theorem mem_of_lookup_eq {d : TD} {k : String} {vs : List String}
    (h : d.lookup k = some vs) : (k, vs) ∈ d := by
  induction d with
  | nil => simp [List.lookup] at h
  | cons kd t ih =>
    obtain ⟨k', v'⟩ := kd
    rw [List.lookup_cons] at h
    by_cases hk : k = k'
    · subst hk
      simp only [beq_self_eq_true] at h
      have hv : v' = vs := by simpa using h
      rw [List.mem_cons, hv]
      exact Or.inl rfl
    · simp only [beq_false_of_ne hk] at h
      exact List.mem_cons_of_mem _ (ih h)

theorem lookup_eq_of_mem_nodup {d : TD} (hnd : (keys d).Nodup) {k : String}
    {vs : List String} (h : (k, vs) ∈ d) : d.lookup k = some vs := by
  induction d with
  | nil => simp at h
  | cons kd t ih =>
    have hk1 : kd.1 ∉ keys t := by
      have := hnd
      simp only [keys, List.map_cons, List.nodup_cons] at this
      exact this.1
    have hnd' : (keys t).Nodup := by
      have := hnd
      simp only [keys, List.map_cons, List.nodup_cons] at this
      exact this.2
    rw [List.mem_cons] at h
    rcases h with h | h
    · rw [← h, List.lookup_cons]
      simp
    · have hne : k ≠ kd.1 := by
        intro he
        exact hk1 (he ▸ List.mem_map_of_mem Prod.fst h)
      rw [List.lookup_cons]
      simp only [beq_false_of_ne hne]
      exact ih hnd' h

theorem mem_dget_of_nodup {d : TD} (hnd : (keys d).Nodup) (k x : String) :
    x ∈ dget d k ↔ ∃ kd ∈ d, kd.1 = k ∧ x ∈ kd.2 := by
  constructor
  · intro h
    unfold dget at h
    cases hl : d.lookup k with
    | none => rw [hl] at h; simp at h
    | some vs =>
      rw [hl] at h
      simp only [Option.getD_some] at h
      exact ⟨(k, vs), mem_of_lookup_eq hl, rfl, h⟩
  · rintro ⟨⟨k', vs⟩, hkd, rfl, hx⟩
    unfold dget
    rw [lookup_eq_of_mem_nodup hnd hkd]
    simpa using hx

end InverseLemmas

/-- Embedding of `DependencyTree` (brew.py:1144-1147): a forward map and its reverse. -/
structure DependencyTree where
  forward : TD
  reverse : TD

/-- Embedding of `DependencyTree.__init__` (brew.py:1145-1147): the reverse map is always
`forward.inverse()`. -/
def DependencyTree.ofForward (fwd : TD) : DependencyTree :=
  ⟨fwd, TreeDict.inverse fwd⟩

/-- Embedding of `DependencyTree.obsolete` (brew.py:1149-1162). -/
def DependencyTree.obsolete (t : DependencyTree) (ignore : List String) :
    List String :=
  if ignore.isEmpty then []
  else
    let allIgnored := TreeDict.unionAll t.forward ignore
    let children := allIgnored.filter (fun x => !ignore.contains x)
    let multiParents := TreeDict.filterDifference t.reverse children allIgnored
    allIgnored.filter (fun x => !multiParents.contains x)

/-- The cascading fixed-point loop of `UninstallQueue.collect`
(brew.py:2260-2263) with an explicit iteration budget: while some removed
package directly depends on a skipped one
(`reverse.filterIntersection(removed, skipped)` non-empty), move those
packages from `removed` to `skipped`. The walrus-bound `deps` of the
source is written out three times here. -/
def cascadeSkipFuel (rev : TD) :
    Nat → List String → List String → List String × List String
  | 0, removed, skipped => (removed, skipped)
  | fuel + 1, removed, skipped =>
    if (TreeDict.filterIntersection rev removed skipped).isEmpty then
      (removed, skipped)
    else
      cascadeSkipFuel rev fuel
        (removed.filter
          (fun x => !(TreeDict.filterIntersection rev removed skipped).contains x))
        (skipped ∪ TreeDict.filterIntersection rev removed skipped)

/-- The loop at a budget that always reaches the fixed point: each
non-final iteration strictly shrinks `removed`, so `removed.length + 1`
iterations suffice. -/
def cascadeSkip (rev : TD) (removed skipped : List String) :
    List String × List String :=
  cascadeSkipFuel rev (removed.length + 1) removed skipped

/-- Result record of `UninstallQueue.collect` (brew.py:2195-2271):
`warnings`/`skips` maps plus the removal queue. `uninstallQueue` is kept
unsorted here (the source sorts it, which does not change membership). -/
structure CollectResult where
  warnings : List (String × List String)
  skips : List (String × List String)
  uninstallQueue : List String
deriving DecidableEq, Repr

/-- Embedding of `getDeps` closure of `collect` (brew.py:2220-2224). The source indexes
`reverse.direct[pkg]`; every package it is called on has a reverse entry,
so the total `dget` read is equivalent. -/
def getDepsFn (rev : TD) (leaves : Bool) (p : String) : List String :=
  if leaves then TreeDict.getLeaves rev p else TreeDict.dget rev p

/-- Embedding of `setWarnings` closure of `collect` (brew.py:2226-2228). -/
def mkWarnings (delete : List String) (getDeps : String → List String)
    (hidden : List String) : List (String × List String) :=
  (delete.map (fun p => (p, (getDeps p).filter (fun x => !hidden.contains x)))).filter
    (fun pr => !pr.2.isEmpty)

/-- Lines 2243-2266 of `UninstallQueue.collect`: the removal/skip partition
computed in the `not ignoreDependencies` branch. Returns
(final `removed`, final `skipped`). -/
def uninstallPartition (fwd rev : TD)
    (primaryPkgs delete activelyIgnored : List String) :
    List String × List String :=
  let rawUninstall := TreeDict.unionAll fwd delete
  let hidden := activelyIgnored ∪ rawUninstall
  let secondary := rawUninstall.filter (fun x => !delete.contains x)
  let skipped0 := TreeDict.filterDifference rev secondary hidden
  let removed0 := rawUninstall.filter (fun x => !skipped0.contains x)
  let primary := (removed0.filter (fun x => primaryPkgs.contains x)).filter
      (fun x => !delete.contains x)
  let removed1 := removed0.filter (fun x => !primary.contains x)
  let skipped1 := skipped0 ∪ primary
  let rs := cascadeSkip rev removed1 skipped1
  (rs.1.filter (fun x => !(TreeDict.missing fwd rs.1).contains x), rs.2)

/-- Embedding of `UninstallQueue.collect` (brew.py:2204-2271). `none` embeds the
`exit(1)` of `forward.assertExist(hiddenPkgs)`; the in-place
`deletePkgs.remove(unknown)` loop drops exactly the occurrences whose key
is missing, i.e. filters `deletePkgs` down to known keys;
`LocalPackage(x).primary` is supplied as membership in `primaryPkgs`. -/
def collect (fwd : TD) (primaryPkgs deletePkgs hiddenPkgs : List String)
    (leaves ignoreDependencies : Bool) : Option CollectResult :=
  let rev := TreeDict.inverse fwd
  if !(TreeDict.missing fwd hiddenPkgs).isEmpty then none
  else
    let delete := deletePkgs.filter (fun k => (fwd.lookup k).isSome)
    let getDeps := getDepsFn rev leaves
    let activelyIgnored :=
      DependencyTree.obsolete (DependencyTree.ofForward fwd) hiddenPkgs
    if ignoreDependencies then
      some ⟨mkWarnings delete getDeps (activelyIgnored ∪ delete), [], delete⟩
    else
      let rawUninstall := TreeDict.unionAll fwd delete
      let hidden := activelyIgnored ∪ rawUninstall
      let rs := uninstallPartition fwd rev primaryPkgs delete activelyIgnored
      some ⟨mkWarnings delete getDeps hidden,
            rs.2.map (fun p =>
              (p, (getDeps p).filter (fun x => !(rs.1 ∪ hiddenPkgs).contains x))),
            rs.1⟩

section CollectLemmas

open TreeDict

theorem mem_filter_not_contains {l deps : List String} {x : String} :
    x ∈ l.filter (fun y => !deps.contains y) ↔ x ∈ l ∧ x ∉ deps := by
  simp [List.mem_filter]

theorem mem_filter_contains {l deps : List String} {x : String} :
    x ∈ l.filter (fun y => deps.contains y) ↔ x ∈ l ∧ x ∈ deps := by
  simp [List.mem_filter]

theorem cascadeSkipFuel_spec (rev : TD) (fuel : Nat) :
    ∀ removed skipped : List String,
    (∀ x ∈ (cascadeSkipFuel rev fuel removed skipped).1, x ∈ removed) ∧
    (∀ x ∈ skipped, x ∈ (cascadeSkipFuel rev fuel removed skipped).2) ∧
    (∀ x ∈ removed,
      x ∈ (cascadeSkipFuel rev fuel removed skipped).1 ∨
        x ∈ (cascadeSkipFuel rev fuel removed skipped).2) ∧
    (∀ x ∈ (cascadeSkipFuel rev fuel removed skipped).2,
      x ∈ skipped ∨ x ∈ removed) ∧
    ((∀ x ∈ removed, x ∉ skipped) →
      ∀ x ∈ (cascadeSkipFuel rev fuel removed skipped).1,
        x ∉ (cascadeSkipFuel rev fuel removed skipped).2) := by
  induction fuel with
  | zero =>
    intro removed skipped
    exact ⟨fun x hx => hx, fun x hx => hx, fun x hx => Or.inl hx,
      fun x hx => Or.inl hx, fun hd x hx => hd x hx⟩
  | succ fuel ih =>
    intro removed skipped
    rw [cascadeSkipFuel]
    by_cases h : (TreeDict.filterIntersection rev removed skipped).isEmpty
    · rw [if_pos h]
      exact ⟨fun x hx => hx, fun x hx => hx, fun x hx => Or.inl hx,
        fun x hx => Or.inl hx, fun hd x hx => hd x hx⟩
    · rw [if_neg h]
      obtain ⟨ih1, ih2, ih3, ih4, ih5⟩ := ih
        (removed.filter
          (fun x => !(TreeDict.filterIntersection rev removed skipped).contains x))
        (skipped ∪ TreeDict.filterIntersection rev removed skipped)
      refine ⟨?_, ?_, ?_, ?_, ?_⟩
      · intro x hx
        exact List.mem_of_mem_filter (ih1 x hx)
      · intro x hx
        exact ih2 x (List.mem_union_iff.mpr (Or.inl hx))
      · intro x hx
        by_cases hd : x ∈ TreeDict.filterIntersection rev removed skipped
        · exact Or.inr (ih2 x (List.mem_union_iff.mpr (Or.inr hd)))
        · exact ih3 x (mem_filter_not_contains.mpr ⟨hx, hd⟩)
      · intro x hx
        rcases ih4 x hx with hx' | hx'
        · rcases List.mem_union_iff.mp hx' with h1 | h1
          · exact Or.inl h1
          · exact Or.inr ((mem_filterIntersection rev removed skipped x).mp h1).1
        · exact Or.inr (List.mem_of_mem_filter hx')
      · intro hdisj
        apply ih5
        intro x hx hcon
        obtain ⟨hxr, hxd⟩ := mem_filter_not_contains.mp hx
        rcases List.mem_union_iff.mp hcon with h1 | h1
        · exact hdisj x hxr h1
        · exact hxd h1

theorem cascadeSkip_spec (rev : TD) (removed skipped : List String) :
    (∀ x ∈ (cascadeSkip rev removed skipped).1, x ∈ removed) ∧
    (∀ x ∈ skipped, x ∈ (cascadeSkip rev removed skipped).2) ∧
    (∀ x ∈ removed,
      x ∈ (cascadeSkip rev removed skipped).1 ∨
        x ∈ (cascadeSkip rev removed skipped).2) ∧
    (∀ x ∈ (cascadeSkip rev removed skipped).2, x ∈ skipped ∨ x ∈ removed) ∧
    ((∀ x ∈ removed, x ∉ skipped) →
      ∀ x ∈ (cascadeSkip rev removed skipped).1,
        x ∉ (cascadeSkip rev removed skipped).2) :=
  cascadeSkipFuel_spec rev (removed.length + 1) removed skipped

theorem uninstallPartition_disjoint (fwd rev : TD)
    (primaryPkgs delete activelyIgnored : List String) :
    ∀ x ∈ (uninstallPartition fwd rev primaryPkgs delete activelyIgnored).1,
      x ∉ (uninstallPartition fwd rev primaryPkgs delete activelyIgnored).2 := by
  intro x hx1 hx2
  simp only [uninstallPartition] at hx1 hx2
  have hx1' := List.mem_of_mem_filter hx1
  refine (cascadeSkip_spec rev _ _).2.2.2.2 ?_ x hx1' hx2
  intro y hy hcon
  obtain ⟨hy0, hyp⟩ := mem_filter_not_contains.mp hy
  obtain ⟨hyraw, hys0⟩ := mem_filter_not_contains.mp hy0
  rcases List.mem_union_iff.mp hcon with h1 | h1
  · exact hys0 h1
  · exact hyp h1

theorem uninstallPartition_delete_sub (fwd rev : TD)
    (primaryPkgs delete activelyIgnored : List String)
    (hdel : ∀ p ∈ delete, (fwd.lookup p).isSome) :
    ∀ p ∈ delete,
      p ∉ (uninstallPartition fwd rev primaryPkgs delete activelyIgnored).2 →
      p ∈ (uninstallPartition fwd rev primaryPkgs delete activelyIgnored).1 := by
  intro p hp hns
  simp only [uninstallPartition] at hns ⊢
  have hraw : p ∈ unionAll fwd delete := unionAll_superset fwd delete p hp
  have hsec : p ∉ (unionAll fwd delete).filter (fun x => !delete.contains x) := by
    intro hmem
    exact (mem_filter_not_contains.mp hmem).2 hp
  have hsk0 : p ∉ filterDifference rev
      ((unionAll fwd delete).filter (fun x => !delete.contains x))
      (activelyIgnored ∪ unionAll fwd delete) := by
    intro hmem
    exact hsec ((mem_filterDifference rev _ _ p).mp hmem).1
  have hr0 : p ∈ (unionAll fwd delete).filter
      (fun x => !(filterDifference rev
        ((unionAll fwd delete).filter (fun x => !delete.contains x))
        (activelyIgnored ∪ unionAll fwd delete)).contains x) :=
    mem_filter_not_contains.mpr ⟨hraw, hsk0⟩
  have hprim : p ∉ (((unionAll fwd delete).filter
      (fun x => !(filterDifference rev
        ((unionAll fwd delete).filter (fun x => !delete.contains x))
        (activelyIgnored ∪ unionAll fwd delete)).contains x)).filter
        (fun x => primaryPkgs.contains x)).filter
        (fun x => !delete.contains x) := by
    intro hmem
    exact (mem_filter_not_contains.mp hmem).2 hp
  have hr1 : p ∈ ((unionAll fwd delete).filter
      (fun x => !(filterDifference rev
        ((unionAll fwd delete).filter (fun x => !delete.contains x))
        (activelyIgnored ∪ unionAll fwd delete)).contains x)).filter
      (fun x => !((((unionAll fwd delete).filter
        (fun x => !(filterDifference rev
          ((unionAll fwd delete).filter (fun x => !delete.contains x))
          (activelyIgnored ∪ unionAll fwd delete)).contains x)).filter
          (fun x => primaryPkgs.contains x)).filter
          (fun x => !delete.contains x)).contains x) :=
    mem_filter_not_contains.mpr ⟨hr0, hprim⟩
  rcases (cascadeSkip_spec rev _ _).2.2.1 p hr1 with hin | hin
  · refine mem_filter_not_contains.mpr ⟨hin, ?_⟩
    intro hmiss
    rw [mem_missing] at hmiss
    have hps := hdel p hp
    rw [hmiss.2] at hps
    simp at hps
  · exact absurd hin hns

theorem uninstallPartition_primary_excluded (fwd rev : TD)
    (primaryPkgs delete activelyIgnored : List String) (p : String)
    (hp : p ∈ primaryPkgs) (hnd : p ∉ delete) :
    p ∉ (uninstallPartition fwd rev primaryPkgs delete activelyIgnored).1 := by
  intro hmem
  simp only [uninstallPartition] at hmem
  have hrs1 := List.mem_of_mem_filter hmem
  have hr1 := (cascadeSkip_spec rev _ _).1 p hrs1
  obtain ⟨hr0, hnp⟩ := mem_filter_not_contains.mp hr1
  exact hnp (mem_filter_not_contains.mpr
    ⟨mem_filter_contains.mpr ⟨hr0, hp⟩, hnd⟩)

theorem map_fst_map_pair (l : List String) (f : String → List String) :
    (l.map (fun p => (p, f p))).map Prod.fst = l := by
  induction l with
  | nil => rfl
  | cons a t ih => simp [ih]

end CollectLemmas

/-- Abstract filesystem state: the existing directories and files, plus the
directory listing backing `os.listdir`. -/
structure FileSystem where
  dirs : List String
  files : List String
  listing : List (String × List String)

/-- Embedding of `os.path.isdir`. -/
def FileSystem.isdir (fs : FileSystem) (p : String) : Bool := fs.dirs.contains p

/-- Embedding of `os.path.isfile` / `os.path.exists` on a file path. -/
def FileSystem.isfile (fs : FileSystem) (p : String) : Bool := fs.files.contains p

/-- Embedding of `os.listdir`. -/
def FileSystem.listdir (fs : FileSystem) (p : String) : List String :=
  (fs.listing.lookup p).getD []

/-- Embedding of `os.path.join(a, b)` for the store paths in play (second argument never
absolute, first never empty). -/
def pjoin (a b : String) : String := a ++ "/" ++ b

/-- Embedding of `Cellar.installPath(pkg)` (brew.py:1628): `<root>/Cellar/<pkg>`. -/
def installPath (root pkg : String) : String := pjoin (pjoin root "Cellar") pkg

/-- Embedding of `LocalPackage.allVersions` (brew.py:1258-1266): the sub-directories of the
package directory whose `.brew` sub-directory exists. The `sorted(...)` of
the source only fixes iteration order and is omitted (all statements are
membership-based). -/
def allVersions (fs : FileSystem) (root pkg : String) : List String :=
  if fs.isdir (installPath root pkg) then
    (fs.listdir (installPath root pkg)).filter
      (fun ver => fs.isdir (pjoin (pjoin (installPath root pkg) ver) ".brew"))
  else []

/-- Embedding of `LocalPackageVersion.installed` (brew.py:1377-1380): the `.brew`
directory of this version exists. -/
def versionInstalled (fs : FileSystem) (root pkg ver : String) : Bool :=
  fs.isdir (pjoin (pjoin (installPath root pkg) ver) ".brew")

/-- Embedding of `LocalPackageVersion.rubyPath` (brew.py:1384-1387):
`<root>/Cellar/<pkg>/<version>/.brew/<pkg>.rb`. -/
def rubyPath (root pkg ver : String) : String :=
  pjoin (pjoin (pjoin (installPath root pkg) ver) ".brew") (pkg ++ ".rb")

/-- Tar member types distinguished by `TarPackage.filter`. -/
inductive TarType
  | reg
  | dir
  | sym
  | lnk
  | special
deriving DecidableEq, Repr

/-- The `TarInfo` fields read by `TarPackage.filter` and
`TarPackage.extract`. -/
structure TarInfo where
  name : String
  typ : TarType
  mode : Option Nat
  linkname : String
deriving DecidableEq, Repr

/-- Embedding of `str.startswith(pre)`, computed on the character lists. -/
def strStartsWith (s pre : String) : Bool := pre.toList.isPrefixOf s.toList

/-- Embedding of `str.endswith(suf)`, computed on the character lists. -/
def strEndsWith (s suf : String) : Bool := suf.toList.isSuffixOf s.toList

/-- Helper of `splitPath`: split a character list on a separator, keeping
empty segments (Python `str.split`). -/
def splitSegsAux (c : Char) : List Char → List Char → List String
  | [], acc => [⟨acc.reverse⟩]
  | d :: rest, acc =>
    if d = c then ⟨acc.reverse⟩ :: splitSegsAux c rest []
    else splitSegsAux c rest (d :: acc)

/-- Split a path string into segments: `str.split` on the slash. -/
def splitPath (s : String) : List String := splitSegsAux '/' s.toList []

/-- Lexical normalisation of an absolute path given as segments, modelling
`os.path.realpath` on a tree without pre-existing symlinks: empty and `.`
segments vanish, `..` pops the last segment (dropped at the root). -/
def normAbs (segs : List String) : List String :=
  segs.foldl
    (fun acc seg =>
      if seg = "" || seg = "." then acc
      else if seg = ".." then acc.dropLast
      else acc ++ [seg]) []

/-- Embedding of `os.path.normpath` on a relative path given as segments: leading `..`
segments are preserved. -/
def normRel (segs : List String) : List String :=
  segs.foldl
    (fun acc seg =>
      if seg = "" || seg = "." then acc
      else if seg = ".." then
        if acc.isEmpty || acc.getLast? = some ".." then acc ++ [".."]
        else acc.dropLast
      else acc ++ [seg]) []

/-- Embedding of `os.path.commonpath([target, dest]) == dest` for normalised absolute
segment lists: `dest` is an ancestor of (or equal to) `target`. -/
def isWithin (dest target : List String) : Bool := dest.isPrefixOf target

/-- The permission-mask block of `TarPackage.filter` (brew.py:1739-1755) for
a present mode; `none` rejects special files. `mode &= ~0o111` applied to a
`0o755`-masked value equals masking with `0o644`. -/
def tarMode (typ : TarType) (m : Nat) : Option Nat :=
  let m1 := m &&& 0o755
  match typ with
  | .reg | .lnk =>
    some ((if m1 &&& 0o100 = 0 then m1 &&& 0o644 else m1) ||| 0o600)
  | .dir | .sym => some m1
  | .special => none

/-- The link-destination block of `TarPackage.filter` (brew.py:1757-1775).
`os.path.join(dest, dirname(name), linkname)` concatenates the segment
lists; the stored normalised linkname is re-joined with `/`. -/
def tarLink (member : TarInfo) (destPath : List String) : Option TarInfo :=
  match member.typ with
  | .lnk | .sym =>
    if strStartsWith member.linkname "/" then none
    else
      let normalized := normRel (splitPath member.linkname)
      let target :=
        if member.typ = TarType.sym then
          normAbs (destPath ++ (splitPath member.name).dropLast ++ normalized)
        else normAbs (destPath ++ normalized)
      if !isWithin destPath target then none
      else some { member with linkname := "/".intercalate normalized }
  | _ => some member

/-- Embedding of `TarPackage.filter` (brew.py:1725-1776). The boolean-returning,
member-mutating source maps to an `Option TarInfo`: `some` carries the
(mode/linkname-adjusted) member, `none` is rejection. `os.path.realpath`
is modelled lexically by `normAbs` (fresh extraction root, no symlinks). -/
def tarFilter (member : TarInfo) (destPath : List String) : Option TarInfo :=
  if strStartsWith member.name "/" then none
  else if !isWithin destPath (normAbs (destPath ++ splitPath member.name)) then
    none
  else
    match member.mode with
    | some m =>
      match tarMode member.typ m with
      | none => none
      | some m2 => tarLink { member with mode := some m2 } destPath
    | none => tarLink member destPath

/-- The entry loop of `TarPackage.extract` (brew.py:1700-1711): accepted
entries accumulate in `subset`, the first accepted directory entry whose
path ends in `/.brew` fixes `(pkg, version)` from its first two path
segments, rejected entries are logged (`errs`). -/
def extractLoop (destPath : List String) :
    List TarInfo → List TarInfo → Option (String × String) → List String →
    List TarInfo × Option (String × String) × List String
  | [], subset, pv, errs => (subset, pv, errs)
  | x :: rest, subset, pv, errs =>
    match tarFilter x destPath with
    | some x' =>
      let pv' :=
        if pv.isNone && x'.typ == TarType.dir && strEndsWith x'.name "/.brew" then
          match splitPath x'.name with
          | p :: v :: _ => some (p, v)
          | _ => pv
        else pv
      extractLoop destPath rest (subset ++ [x']) pv' errs
    | none => extractLoop destPath rest subset pv (errs ++ [x.name])

/-- Embedding of `TarPackage.extract` (brew.py:1688-1722), non-dry-run path: `none` when
no accepted `.brew` directory entry was found (error logged, nothing is
extracted); otherwise `tar.extractall(CELLAR, subset)` extracts exactly the
accepted subset. -/
def extract (entries : List TarInfo) (destPath : List String) :
    Option (String × String × List TarInfo) :=
  match extractLoop destPath entries [] none [] with
  | (subset, some (p, v), _) => some (p, v, subset)
  | (_, none, _) => none

namespace Fixer

/-- Embedding of the `@@HOMEBREW_` byte needle (brew.py:1994). -/
def needle : List Char := "@@HOMEBREW_".toList

/-- Embedding of `bytes.index` combined with the `in` test: first index at which `pat`
occurs, `none` when absent. -/
def firstIdx (pat : List Char) : List Char → Option Nat
  | [] => if pat.isEmpty then some 0 else none
  | c :: rest =>
    if pat.isPrefixOf (c :: rest) then some 0
    else (firstIdx pat rest).map (· + 1)

theorem firstIdx_some_le {pat l : List Char} {i : Nat}
    (h : firstIdx pat l = some i) : i + pat.length ≤ l.length := by
  induction l generalizing i with
  | nil =>
    rw [firstIdx] at h
    split at h
    · next hp =>
      obtain rfl : (0 : Nat) = i := Option.some.inj h
      simp [List.isEmpty_iff.mp hp]
    · simp at h
  | cons c rest ih =>
    rw [firstIdx] at h
    split at h
    · next hp =>
      obtain rfl : (0 : Nat) = i := Option.some.inj h
      have := (List.isPrefixOf_iff_prefix.mp hp).length_le
      simpa using this
    · obtain ⟨j, hj, rfl⟩ := Option.map_eq_some'.mp h
      have := ih hj
      simp only [List.length_cons]
      omega

theorem chunk_len_le (data : List Char) (start : Nat) :
    ((data.drop start).take 4096).length ≤ data.length - start := by
  rw [List.length_take, List.length_drop]
  exact min_le_right _ _

theorem start_lt_of_chunk_ne (data : List Char) (start : Nat)
    (h : ¬((data.drop start).take 4096).isEmpty = true) : start < data.length := by
  have hne : (data.drop start).take 4096 ≠ [] := by
    simpa [List.isEmpty_iff] using h
  have hpos : 0 < ((data.drop start).take 4096).length := List.length_pos.mpr hne
  rw [List.length_take, List.length_drop] at hpos
  omega

/-- Embedding of `Fixer._read_placeholders_location` (brew.py:1989-2021) recast over the
whole byte list with an explicit iteration budget, `start` being the
offset of the next `fp.read`: each iteration reads one 4096-byte chunk and
either advances past it (no needle), re-seeks 30 bytes back (needle too
close to the chunk end), records a token whose closing `@@` starts within
the 28 bytes following the opening `@@` (then seeks to the token end), or
skips past the needle. -/
def scanFromFuel (data : List Char) :
    Nat → Nat → List (Nat × List Char)
  | 0, _ => []
  | fuel + 1, start =>
    if ((data.drop start).take 4096).isEmpty then []
    else
      match firstIdx needle ((data.drop start).take 4096) with
      | none => scanFromFuel data fuel (start + ((data.drop start).take 4096).length)
      | some idx =>
        if idx > 4096 - 30 then
          scanFromFuel data fuel (start + ((data.drop start).take 4096).length - 30)
        else
          match firstIdx ['@', '@']
              ((((data.drop start).take 4096).drop (idx + 2)).take 28) with
          | some j =>
            (start + idx, (((data.drop start).take 4096).drop idx).take (j + 4)) ::
              scanFromFuel data fuel (start + idx + 2 + j + 2)
          | none => scanFromFuel data fuel (start + idx + needle.length)

/-- The scan at a budget that always runs to the natural end of the file:
every iteration advances the read position by at least one byte, so
`data.length + 1` iterations suffice. -/
def scanFrom (data : List Char) (start : Nat) : List (Nat × List Char) :=
  scanFromFuel data (data.length + 1) start

/-- Embedding of `Fixer.INREPLACE_DICT` (brew.py:2045-2049), parameterised by the store
root (`Cellar.ROOT`); `Cellar.CELLAR` is the root followed by `/Cellar`. -/
def INREPLACE_DICT (root : List Char) : List (List Char × List Char) :=
  [("@@HOMEBREW_PREFIX@@".toList, root),
   ("@@HOMEBREW_CELLAR@@".toList, root ++ "/Cellar".toList),
   ("@@HOMEBREW_LIBRARY@@".toList, root ++ "/Library".toList)]

/-- Embedding of `Fixer._write_placeholders_replace` (brew.py:2023-2043) at slice level:
the 4 KiB chunked copy loop transfers exactly the bytes between the
previous position and the next match, the appended huge-position sentinel
pair becomes the final tail copy, and `INREPLACE_DICT[match]` raising
`KeyError` on an unknown token is embedded as `none`. -/
def writeRepl (dict : List (List Char × List Char)) (data : List Char) :
    List (Nat × List Char) → Nat → Option (List Char)
  | [], prev => some (data.drop prev)
  | (pos, tok) :: rest, prev =>
    match dict.lookup tok with
    | none => none
    | some v =>
      match writeRepl dict data rest (pos + tok.length) with
      | none => none
      | some tail => some ((data.drop prev).take (pos - prev) ++ v ++ tail)

/-- Embedding of `Fixer.inreplace` (brew.py:1964-1985): without matches the file is left
untouched (early return); otherwise the rewrite runs over all matches. -/
def inreplace (dict : List (List Char × List Char)) (data : List Char) :
    Option (List Char) :=
  if (scanFrom data 0).isEmpty then some data
  else writeRepl dict data (scanFrom data 0) 0

/-- The `missed placeholder` summary loop of `inreplace` (brew.py:1972-1975):
detected tokens that have no entry in the replacement dict. -/
def missedPlaceholders (dict : List (List Char × List Char))
    (data : List Char) : List (Nat × List Char) :=
  (scanFrom data 0).filter (fun m => (dict.lookup m.2).isNone)

end Fixer

namespace RubyParser

/-- The machine profile fields consumed by `_parse_uses`
(`Arch.IS_MAC`, `Arch.OS_VER`; brew.py:888-909). -/
structure ArchProfile where
  isMac : Bool
  osVer : String

/-- Embedding of `Arch.ALL_OS` (brew.py:896-909). -/
def ALL_OS : List (String × String) :=
  [("yosemite", "10.10"), ("el_capitan", "10.11"), ("sierra", "10.12"),
   ("high_sierra", "10.13"), ("mojave", "10.14"), ("catalina", "10.15"),
   ("big_sur", "11"), ("monterey", "12"), ("ventura", "13"),
   ("sonoma", "14"), ("sequoia", "15"), ("tahoe", "26")]

/-- Embedding of `RubyParser.IGNORED_TARGETS` (brew.py:2334). -/
def IGNORED_TARGETS : List String := [":optional", ":build", ":test"]

/-- Embedding of `str.strip(c)` for one character: drop it from both ends. -/
def stripChar (s : String) (c : Char) : String :=
  ⟨((s.toList.dropWhile (· = c)).reverse.dropWhile (· = c)).reverse⟩

/-- Embedding of `RubyParser._unify_tok` (brew.py:2439-2446); regex groups that did not
participate arrive as the empty string (`None` and the empty string are
equally falsy in the source). -/
def unifyTok (string sym arr : String) : List String :=
  if string ≠ "" then [string]
  else if sym ≠ "" then [sym]
  else if arr ≠ "" then (arr.splitOn ",").map (fun x => stripChar x.trim '"')
  else []

/-- Embedding of `RubyParser._is_ignored_target` (brew.py:2448-2458) with the testing
flags at their defaults (`ASSERT_KNOWN_SYMBOLS = IGNORE_RULES = False`). -/
def isIgnoredTarget (args : List String) : Bool :=
  args.any (fun v => IGNORED_TARGETS.contains v)

/-- Embedding of `str.lstrip` removing leading colons. -/
def lstripColon (s : String) : String := ⟨s.toList.dropWhile (· = ':')⟩

/-- Embedding of `RubyParser._parse_uses` (brew.py:2540-2560): `true` means the
requirement is already fulfilled (no dependency gets added). The `REQ`
regex group binds `rAct` and `rSym` together, hence the paired option;
the walrus `if os_ver := ALL_OS.get(...)` is falsy for a missing key or an
empty value (no table value is empty, but the check is kept). Python's
lexicographic `str` comparison `OS_VER >= os_ver` is `String` order. -/
def parseUses (arch : ArchProfile) (uStr uSym uArr : String)
    (req : Option (String × String)) : Bool :=
  if isIgnoredTarget (unifyTok uStr uSym uArr) then true
  else if !arch.isMac then false
  else
    match req with
    | none => true
    | some (rAct, rSym) =>
      if rAct = "since:" then
        match ALL_OS.lookup (lstripColon rSym) with
        | some osv => if osv ≠ "" then decide (osv ≤ arch.osVer) else true
        | none => true
      else true

/-- The `uses_from_macos` arm of `RubyParser.parse` (brew.py:2422-2427) for
one matched, active line: the named package joins the dependency set iff
`_parse_uses` returns `False`. -/
def usesLine (deps : List String) (arch : ArchProfile)
    (dep uStr uSym uArr : String) (req : Option (String × String)) :
    List String :=
  if parseUses arch uStr uSym uArr req then deps else deps.insert dep

end RubyParser

section Claims

open TreeDict

/-- Claim C4: for every `DependencyTree` and every non-empty list `S` of
package names that are all keys of the forward map, `obsolete(S)` is a
superset of `S`; for an empty `S` it returns the empty set. -/
theorem C4_obsolete_superset (fwd : TD) (S : List String)
    (hne : S ≠ []) (hkeys : ∀ k ∈ S, (fwd.lookup k).isSome) :
    (∀ p ∈ S, p ∈ (DependencyTree.ofForward fwd).obsolete S) ∧
    (DependencyTree.ofForward fwd).obsolete [] = [] := by
  constructor
  · intro p hp
    unfold DependencyTree.obsolete
    rw [if_neg (by simpa [List.isEmpty_iff] using hne)]
    refine mem_filter_not_contains.mpr ⟨?_, ?_⟩
    · exact unionAll_superset _ S p hp
    · intro hmp
      have hch := ((mem_filterDifference _ _ _ p).mp hmp).1
      exact (mem_filter_not_contains.mp hch).2 hp
  · simp [DependencyTree.obsolete]

/-- Witness for C4 on a two-node graph. -/
theorem C4_witness :
    "a" ∈ (DependencyTree.ofForward [("a", ["b"]), ("b", [])]).obsolete ["a"] :=
  (C4_obsolete_superset [("a", ["b"]), ("b", [])] ["a"] (by decide)
    (by decide)).1 "a" (by decide)

/-- Claim C7: on a `TreeDict` whose direct map is acyclic, `getAll(k)`
terminates — every recursion budget of at least `d.length + 1` computes the
same set — `k ∉ getAll(k)`, and `getAll(k)` is exactly the set of
transitive descendants of `k`, excluding `k` itself. -/
theorem C7_getAll_descendants (d : TD) (hac : Acyclic d) (k : String) :
    (∀ fuel, d.length + 1 ≤ fuel →
      ∀ y, y ∈ getAllFuel d fuel k ↔ y ∈ getAll d k) ∧
    k ∉ getAll d k ∧
    (∀ y, y ∈ getAll d k ↔ Reaches d k y ∧ y ≠ k) := by
  refine ⟨?_, ?_, ?_⟩
  · intro fuel hf y
    rw [getAllFuel_correct hac hf, mem_getAll hac]
  · intro hk
    exact hac k ((mem_getAll hac k k).mp hk)
  · intro y
    rw [mem_getAll hac]
    constructor
    · intro h
      refine ⟨h, ?_⟩
      rintro rfl
      exact hac y h
    · exact fun h => h.1

/-- Witness for C7 on a two-node acyclic graph. -/
theorem C7_witness : "a" ∉ getAll [("a", ["b"]), ("b", [])] "a" :=
  (C7_getAll_descendants [("a", ["b"]), ("b", [])]
    (acyclic_of_rank _ (fun s => if s = "a" then 1 else 0) (by
      intro x y hy
      by_cases hx : x = "a"
      · subst hx
        have hy' : y = "b" := by
          simpa [TreeDict.dget, List.lookup_cons] using hy
        subst hy'
        simp
      · by_cases hxb : x = "b"
        · subst hxb
          simp [TreeDict.dget, List.lookup_cons] at hy
        · simp [TreeDict.dget, List.lookup_cons, beq_false_of_ne hx,
            beq_false_of_ne hxb, List.lookup] at hy))
    "a").2.1

/-- Claim C9: `x ∈ t.direct[k]` iff `k ∈ t.inverse().direct[x]`; every key of
`t.direct` is also a key of the inverse (mapped to the empty set when
nothing depends on it); and the inverse's key set is exactly the keys of
`t` plus every name occurring as a value. -/
theorem C9_inverse_characterisation (d : TD) (hnd : (keys d).Nodup) :
    (∀ k x, x ∈ dget d k ↔ k ∈ dget (inverse d) x) ∧
    (∀ k ∈ keys d, k ∈ keys (inverse d)) ∧
    (∀ x, x ∈ keys (inverse d) ↔ x ∈ keys d ∨ ∃ kd ∈ d, x ∈ kd.2) := by
  refine ⟨?_, ?_, ?_⟩
  · intro k x
    rw [mem_dget_inverse, mem_dget_of_nodup hnd]
  · intro k hk
    rw [mem_keys_inverse]
    obtain ⟨kd, hkd, rfl⟩ := List.mem_map.mp hk
    exact Or.inl ⟨kd, hkd, rfl⟩
  · intro x
    rw [mem_keys_inverse]
    constructor
    · rintro (⟨kd, hkd, rfl⟩ | h)
      · exact Or.inl (List.mem_map_of_mem Prod.fst hkd)
      · exact Or.inr h
    · rintro (h | h)
      · obtain ⟨kd, hkd, rfl⟩ := List.mem_map.mp h
        exact Or.inl ⟨kd, hkd, rfl⟩
      · exact Or.inr h

/-- Claim C1: for every dependency graph over installed packages and every
`UninstallQueue.collect(delete, ignore)` call with the `no_dependencies`
flag unset, the final removal set (`uninstallQueue`) is disjoint from the
skipped set, and every member of `delete` that is not skipped is removed. -/
theorem C1_collect_partition (fwd : TD)
    (primaryPkgs deletePkgs hiddenPkgs : List String) (leaves : Bool)
    (res : CollectResult)
    (hdel : ∀ p ∈ deletePkgs, (fwd.lookup p).isSome)
    (h : collect fwd primaryPkgs deletePkgs hiddenPkgs leaves false = some res) :
    (∀ p ∈ res.uninstallQueue, p ∉ res.skips.map Prod.fst) ∧
    (∀ p ∈ deletePkgs, p ∉ res.skips.map Prod.fst → p ∈ res.uninstallQueue) := by
  have hfilter : deletePkgs.filter (fun k => (fwd.lookup k).isSome) = deletePkgs :=
    List.filter_eq_self.mpr hdel
  by_cases hmiss : (missing fwd hiddenPkgs).isEmpty
  · simp only [collect, hfilter, hmiss, Bool.not_true, Bool.false_eq_true,
      if_false, Option.some.injEq] at h
    subst h
    constructor
    · intro p hp hcon
      simp only [map_fst_map_pair] at hcon
      exact uninstallPartition_disjoint fwd (inverse fwd) primaryPkgs
        deletePkgs _ p hp hcon
    · intro p hp hcon
      simp only [map_fst_map_pair] at hcon
      exact uninstallPartition_delete_sub fwd (inverse fwd) primaryPkgs
        deletePkgs _ hdel p hp hcon
  · simp only [collect, hmiss, Bool.not_false, if_true] at h
    exact absurd h (by simp)

/-- Witness for C1 on a concrete two-package graph: uninstalling `a` also
removes its dependency `b`, and the partition conditions hold. -/
theorem C1_witness :
    "a" ∈ ({ warnings := [], skips := [], uninstallQueue := ["b", "a"] }
        : CollectResult).uninstallQueue ∧
    "a" ∉ ({ warnings := [], skips := [], uninstallQueue := ["b", "a"] }
        : CollectResult).skips.map Prod.fst := by
  have hc := C1_collect_partition [("a", ["b"]), ("b", [])] [] ["a"] [] false
    ⟨[], [], ["b", "a"]⟩ (by decide) (by decide)
  exact ⟨hc.2 "a" (by decide) (by decide), by decide⟩

/-- Claim C3: a package whose `.primary` flag is set and which is not in the
explicit delete list never appears in the final removal queue of any
uninstall-planning call. -/
theorem C3_primary_explicit_only (fwd : TD)
    (primaryPkgs deletePkgs hiddenPkgs : List String)
    (leaves ignoreDependencies : Bool) (res : CollectResult) (p : String)
    (hp : p ∈ primaryPkgs) (hnd : p ∉ deletePkgs)
    (h : collect fwd primaryPkgs deletePkgs hiddenPkgs leaves
      ignoreDependencies = some res) :
    p ∉ res.uninstallQueue := by
  have hnd' : p ∉ deletePkgs.filter (fun k => (fwd.lookup k).isSome) :=
    fun hmem => hnd (List.mem_of_mem_filter hmem)
  by_cases hmiss : (missing fwd hiddenPkgs).isEmpty
  · cases hig : ignoreDependencies with
    | true =>
      rw [hig] at h
      simp only [collect, hmiss, Bool.not_true, Bool.false_eq_true, if_false,
        if_true, Option.some.injEq] at h
      subst h
      exact hnd'
    | false =>
      rw [hig] at h
      simp only [collect, hmiss, Bool.not_true, Bool.false_eq_true, if_false,
        Option.some.injEq] at h
      subst h
      exact uninstallPartition_primary_excluded fwd (inverse fwd) primaryPkgs
        _ _ p hp hnd'
  · simp only [collect, hmiss, Bool.not_false, if_true] at h
    exact absurd h (by simp)

/-- Witness for C3: `b` is marked primary and only a dependency of the
deleted `a`, so it is skipped, not removed. -/
theorem C3_witness :
    "b" ∉ ({ warnings := [], skips := [("b", [])], uninstallQueue := ["a"] }
        : CollectResult).uninstallQueue :=
  C3_primary_explicit_only [("a", ["b"]), ("b", [])] ["b"] ["a"] [] false false
    ⟨[], [("b", [])], ["a"]⟩ "b" (by decide) (by decide) (by decide)

/-- Witness for C9 on a one-edge graph. -/
theorem C9_witness :
    "b" ∈ dget [("a", ["b"])] "a" ↔
      "a" ∈ dget (inverse [("a", ["b"])]) "b" :=
  (C9_inverse_characterisation [("a", ["b"])] (by decide)).1 "a" "b"

/-- A store with a half-extracted version: the `.brew` directory of
`wget/1.0` exists but its recipe file `wget.rb` does not. -/
def fsNoRecipe : FileSystem :=
  { dirs := ["/r/Cellar/wget", "/r/Cellar/wget/1.0/.brew"],
    files := [],
    listing := [("/r/Cellar/wget", ["1.0"])] }

/-- Claim C5, counterexample: a version directory whose `.brew` directory
exists but whose recipe file `.brew/wget.rb` does not is still enumerated
by `allVersions` and reported installed — the code only tests the `.brew`
directory, so "enumerated only if the recipe file exists" is false. -/
theorem C5_counterexample :
    "1.0" ∈ allVersions fsNoRecipe "/r" "wget" ∧
    versionInstalled fsNoRecipe "/r" "wget" "1.0" = true ∧
    fsNoRecipe.isfile (rubyPath "/r" "wget" "1.0") = false := by decide

/-- Claim C5, amended: a `(pkg, version)` directory is enumerated exactly when
it is listed in the package directory and its `.brew` sub-directory exists
(which is also `LocalPackageVersion.installed`); the recipe file itself is
not consulted. -/
theorem C5_amended_brew_dir (fs : FileSystem) (root pkg ver : String) :
    ver ∈ allVersions fs root pkg ↔
      fs.isdir (installPath root pkg) = true ∧
      ver ∈ fs.listdir (installPath root pkg) ∧
      versionInstalled fs root pkg ver = true := by
  unfold allVersions versionInstalled
  by_cases hd : fs.isdir (installPath root pkg)
  · simp [hd, List.mem_filter]
  · simp [hd]

/-- Witness for the amended C5 on a fully installed version. -/
theorem C5_witness :
    "2.0" ∈ allVersions
      { dirs := ["/r/Cellar/curl", "/r/Cellar/curl/2.0/.brew"],
        files := ["/r/Cellar/curl/2.0/.brew/curl.rb"],
        listing := [("/r/Cellar/curl", ["2.0"])] } "/r" "curl" :=
  (C5_amended_brew_dir _ "/r" "curl" "2.0").mpr (by decide)

/-- Claim C6: a text file containing the unknown token `@@HOMEBREW_FOO@@` is
reported (`missed placeholder`) but the rewrite then evaluates
`INREPLACE_DICT[match]` on the unknown token and raises `KeyError`
(embedded as `none`): the file is never rewritten with the token
preserved, contradicting the documented "reported but preserved". -/
theorem C6_unknown_placeholder_crash :
    Fixer.missedPlaceholders (Fixer.INREPLACE_DICT "/r".toList)
        "x@@HOMEBREW_FOO@@y".toList =
      [(1, "@@HOMEBREW_FOO@@".toList)] ∧
    Fixer.inreplace (Fixer.INREPLACE_DICT "/r".toList)
        "x@@HOMEBREW_FOO@@y".toList = none := by decide

theorem scanFromFuel_token_le (data : List Char) (fuel : Nat) :
    ∀ start pos tok, (pos, tok) ∈ Fixer.scanFromFuel data fuel start →
      tok.length ≤ 30 := by
  induction fuel with
  | zero => simp [Fixer.scanFromFuel]
  | succ fuel ih =>
    intro start pos tok hmem
    rw [Fixer.scanFromFuel] at hmem
    split at hmem
    · simp at hmem
    · split at hmem
      · exact ih _ _ _ hmem
      · next idx hidx =>
        split at hmem
        · exact ih _ _ _ hmem
        · split at hmem
          · next j hj =>
            rw [List.mem_cons] at hmem
            rcases hmem with heq | hmem
            · have hle := Fixer.firstIdx_some_le hj
              have hsuf :
                  ((((data.drop start).take 4096).drop (idx + 2)).take 28).length
                    ≤ 28 := List.length_take_le _ _
              have htok : tok =
                  (((data.drop start).take 4096).drop idx).take (j + 4) :=
                (Prod.mk.injEq _ _ _ _ ▸ heq).2
              have h2 : (['@', '@'] : List Char).length = 2 := rfl
              have := List.length_take_le (j + 4)
                (((data.drop start).take 4096).drop idx)
              rw [htok]
              omega
            · exact ih _ _ _ hmem
          · exact ih _ _ _ hmem

/-- Claim C10: the scanner records a `@@HOMEBREW_` occurrence as a token only
when a closing `@@` lies within the 28 bytes after the opening `@@`, so
every reported (and hence replaced) token is at most 30 bytes long; when
the scan finds no token at all, `inreplace` leaves the file unchanged. -/
theorem C10_token_bound :
    (∀ data start pos tok, (pos, tok) ∈ Fixer.scanFrom data start →
      tok.length ≤ 30) ∧
    (∀ dict data, Fixer.scanFrom data 0 = [] →
      Fixer.inreplace dict data = some data) := by
  constructor
  · intro data start pos tok hmem
    exact scanFromFuel_token_le data _ start pos tok hmem
  · intro dict data h
    unfold Fixer.inreplace
    rw [if_pos (by simp [h])]

/-- Witness for C10: the 19-byte `@@HOMEBREW_PREFIX@@` token is reported
(within the bound), while a 31-byte `@@HOMEBREW_…@@` occurrence is not
detected at all and its file passes through `inreplace` unchanged. -/
theorem C10_witness :
    ("@@HOMEBREW_PREFIX@@".toList.length ≤ 30) ∧
    Fixer.inreplace (Fixer.INREPLACE_DICT "/r".toList)
        "@@HOMEBREW_ABCDEFGHIJKLMNOPQR@@".toList =
      some "@@HOMEBREW_ABCDEFGHIJKLMNOPQR@@".toList :=
  ⟨C10_token_bound.1 "@@HOMEBREW_PREFIX@@".toList 0 0
      "@@HOMEBREW_PREFIX@@".toList (by decide),
   C10_token_bound.2 (Fixer.INREPLACE_DICT "/r".toList)
      "@@HOMEBREW_ABCDEFGHIJKLMNOPQR@@".toList (by decide)⟩

theorem lookup_val_mem {α β : Type} [BEq α] (l : List (α × β)) (k : α) (v : β)
    (h : l.lookup k = some v) : ∃ p ∈ l, p.2 = v := by
  induction l with
  | nil => simp [List.lookup] at h
  | cons kd t ih =>
    rw [List.lookup_cons] at h
    split at h
    · exact ⟨kd, List.mem_cons_self _ _, Option.some.inj h⟩
    · obtain ⟨p, hp, hv⟩ := ih h
      exact ⟨p, List.mem_cons_of_mem _ hp, hv⟩

theorem ALL_OS_val_ne_empty {s v : String}
    (h : RubyParser.ALL_OS.lookup s = some v) : v ≠ "" := by
  obtain ⟨p, hp, rfl⟩ := lookup_val_mem _ s v h
  have hall : ∀ q ∈ RubyParser.ALL_OS, q.2 ≠ "" := by decide
  exact hall p hp

/-- Claim C8: on an active `uses_from_macos` line — (a) a `:build`, `:test` or
`:optional` target token prevents the dependency; (b) on a non-mac profile
the package is added; (c) on a mac profile with a `since: :<codename>`
clause for a known codename it is added iff the profile's `os_version` is
(lexicographically) less than the codename's version; (d) on a mac profile
without a `since:` clause it is not added. -/
theorem C8_uses_from_macos (arch : RubyParser.ArchProfile) (deps : List String)
    (dep uStr uSym uArr : String) (req : Option (String × String)) :
    (RubyParser.isIgnoredTarget (RubyParser.unifyTok uStr uSym uArr) = true →
      RubyParser.usesLine deps arch dep uStr uSym uArr req = deps) ∧
    (RubyParser.isIgnoredTarget (RubyParser.unifyTok uStr uSym uArr) = false →
      arch.isMac = false →
      dep ∈ RubyParser.usesLine deps arch dep uStr uSym uArr req) ∧
    (∀ rSym v,
      RubyParser.isIgnoredTarget (RubyParser.unifyTok uStr uSym uArr) = false →
      arch.isMac = true → req = some ("since:", rSym) →
      RubyParser.ALL_OS.lookup (RubyParser.lstripColon rSym) = some v →
      (dep ∈ RubyParser.usesLine deps arch dep uStr uSym uArr req ↔
        dep ∈ deps ∨ arch.osVer < v)) ∧
    (RubyParser.isIgnoredTarget (RubyParser.unifyTok uStr uSym uArr) = false →
      arch.isMac = true →
      (req = none ∨ ∃ rAct rSym, req = some (rAct, rSym) ∧ rAct ≠ "since:") →
      RubyParser.usesLine deps arch dep uStr uSym uArr req = deps) := by
  refine ⟨?_, ?_, ?_, ?_⟩
  · intro hig
    unfold RubyParser.usesLine RubyParser.parseUses
    rw [hig]
    simp
  · intro hig hmac
    unfold RubyParser.usesLine RubyParser.parseUses
    rw [hig, hmac]
    simp [List.mem_insert_iff]
  · intro rSym v hig hmac hreq hlook
    subst hreq
    have hv : v ≠ "" := ALL_OS_val_ne_empty hlook
    have hstep : RubyParser.parseUses arch uStr uSym uArr
        (some ("since:", rSym)) = decide (v ≤ arch.osVer) := by
      unfold RubyParser.parseUses
      rw [hig, hmac]
      simp [hlook, hv]
    unfold RubyParser.usesLine
    rw [hstep]
    by_cases hle : v ≤ arch.osVer
    · rw [if_pos (by simpa using hle)]
      simp [not_lt.mpr hle]
    · rw [if_neg (by simpa using hle)]
      simp [List.mem_insert_iff, not_le.mp hle]
  · intro hig hmac hreq
    unfold RubyParser.usesLine RubyParser.parseUses
    rw [hig, hmac]
    rcases hreq with rfl | ⟨rAct, rSym, rfl, hne⟩
    · simp
    · simp [hne]

/-- Witness for C8, case (c): `uses_from_macos "zlib", since: :sonoma` on a
ventura (`13`) profile adds the dependency because `13 < 14`. -/
theorem C8_witness :
    "zlib" ∈ RubyParser.usesLine [] ⟨true, "13"⟩ "zlib" "" "" ""
        (some ("since:", ":sonoma")) ↔
      "zlib" ∈ ([] : List String) ∨ ("13" : String) < "14" :=
  (C8_uses_from_macos ⟨true, "13"⟩ [] "zlib" "" "" ""
      (some ("since:", ":sonoma"))).2.2.1 ":sonoma" "14"
    (by decide) rfl rfl (by decide)

theorem extractLoop_spec (destPath : List String) (entries : List TarInfo) :
    ∀ subset pv errs,
      (∀ x ∈ (extractLoop destPath entries subset pv errs).1,
        x ∈ subset ∨ ∃ y ∈ entries, tarFilter y destPath = some x) ∧
      (∀ y ∈ entries, tarFilter y destPath = none →
        y.name ∈ (extractLoop destPath entries subset pv errs).2.2) ∧
      (∀ e ∈ errs, e ∈ (extractLoop destPath entries subset pv errs).2.2) ∧
      ((∀ y ∈ entries, ∀ x, tarFilter y destPath = some x →
          ¬(x.typ = TarType.dir ∧ strEndsWith x.name "/.brew" = true)) →
        (extractLoop destPath entries subset pv errs).2.1 = pv) := by
  induction entries with
  | nil =>
    intro subset pv errs
    exact ⟨fun x hx => Or.inl hx, fun y hy => by simp at hy,
      fun e he => he, fun _ => rfl⟩
  | cons x rest ih =>
    intro subset pv errs
    cases hf : tarFilter x destPath with
    | some x' =>
      simp only [extractLoop, hf]
      obtain ⟨ih1, ih2, ih3, _⟩ := ih (subset ++ [x'])
        (if pv.isNone && x'.typ == TarType.dir && strEndsWith x'.name "/.brew" then
          match splitPath x'.name with
          | p :: v :: _ => some (p, v)
          | _ => pv
        else pv) errs
      refine ⟨?_, ?_, ih3, ?_⟩
      · intro x₀ hx₀
        rcases ih1 x₀ hx₀ with hin | ⟨y, hy, hfy⟩
        · rcases List.mem_append.mp hin with hin | hin
          · exact Or.inl hin
          · rw [List.mem_singleton] at hin
            exact Or.inr ⟨x, List.mem_cons_self _ _, hin ▸ hf⟩
        · exact Or.inr ⟨y, List.mem_cons_of_mem _ hy, hfy⟩
      · intro y hy hfy
        rcases List.mem_cons.mp hy with rfl | hy
        · rw [hf] at hfy
          exact absurd hfy (by simp)
        · exact ih2 y hy hfy
      · intro hno
        have hnb := hno x (List.mem_cons_self _ _) x' hf
        have hcond : (pv.isNone && (x'.typ == TarType.dir)
            && strEndsWith x'.name "/.brew") = false := by
          by_cases ht : x'.typ = TarType.dir
          · have hend : strEndsWith x'.name "/.brew" = false := by
              by_contra hc
              exact hnb ⟨ht, by simpa using hc⟩
            simp [hend]
          · have : (x'.typ == TarType.dir) = false := by
              simpa using ht
            simp [this]
        rw [hcond]
        simp only [Bool.false_eq_true, if_false]
        exact (ih (subset ++ [x']) pv errs).2.2.2
          (fun y hy => hno y (List.mem_cons_of_mem _ hy))
    | none =>
      simp only [extractLoop, hf]
      obtain ⟨ih1, ih2, ih3, ih4⟩ := ih subset pv (errs ++ [x.name])
      refine ⟨?_, ?_, ?_, ?_⟩
      · intro x₀ hx₀
        rcases ih1 x₀ hx₀ with hin | ⟨y, hy, hfy⟩
        · exact Or.inl hin
        · exact Or.inr ⟨y, List.mem_cons_of_mem _ hy, hfy⟩
      · intro y hy hfy
        rcases List.mem_cons.mp hy with rfl | hy
        · exact ih3 y.name (by simp)
        · exact ih2 y hy hfy
      · intro e he
        exact ih3 e (List.mem_append.mpr (Or.inl he))
      · intro hno
        exact ih4 (fun y hy => hno y (List.mem_cons_of_mem _ hy))

/-- Extraction destination of the C2 examples: the normalised
`realpath(Cellar.CELLAR)` as segments. -/
def destEx : List String := ["opt", "brew", "Cellar"]

/-- A well-formed bottle layout entry. -/
def brewDirEntry : TarInfo :=
  { name := "wget/1.0/.brew", typ := TarType.dir, mode := some 0o755,
    linkname := "" }

/-- A prohibited entry with an absolute path. -/
def evilEntry : TarInfo :=
  { name := "/evil", typ := TarType.reg, mode := some 0o644, linkname := "" }

/-- Claim C2, counterexample: the safety filter rejects the absolute-path
entry `/evil`, yet the archive is not aborted — extraction proceeds and the
accepted `.brew` entry is still written into the Cellar, contradicting
"no entry of that archive is extracted". -/
theorem C2_counterexample :
    tarFilter evilEntry destEx = none ∧
    extract [brewDirEntry, evilEntry] destEx =
      some ("wget", "1.0", [brewDirEntry]) := by decide

/-- Claim C2, amended: a rejected entry is recorded in the error summary and
excluded from extraction — everything extracted passed the filter — while
the remaining accepted entries are still extracted; the archive as a whole
is aborted (nothing extracted) only when no accepted entry is a directory
whose path ends in `/.brew`. -/
theorem C2_rejected_entry_skipped (entries : List TarInfo)
    (destPath : List String) :
    (∀ p v subset, extract entries destPath = some (p, v, subset) →
      ∀ x ∈ subset, ∃ y ∈ entries, tarFilter y destPath = some x) ∧
    (∀ y ∈ entries, tarFilter y destPath = none →
      y.name ∈ (extractLoop destPath entries [] none []).2.2) ∧
    ((∀ y ∈ entries, ∀ x, tarFilter y destPath = some x →
        ¬(x.typ = TarType.dir ∧ strEndsWith x.name "/.brew" = true)) →
      extract entries destPath = none) := by
  obtain ⟨h1, h2, _h3, h4⟩ := extractLoop_spec destPath entries [] none []
  refine ⟨?_, h2, ?_⟩
  · intro p v subset hex x hx
    unfold extract at hex
    rcases hE : extractLoop destPath entries [] none [] with ⟨s, pv, e⟩
    rw [hE] at hex h1
    cases pv with
    | none => exact absurd hex (by simp)
    | some pv' =>
      obtain ⟨p', v'⟩ := pv'
      simp only [Option.some.injEq] at hex
      obtain ⟨-, -, rfl⟩ := Prod.mk.injEq .. ▸ hex
      rcases h1 x (by simpa using hx) with hin | hin
      · simp at hin
      · exact hin
  · intro hno
    have hpv := h4 hno
    unfold extract
    rcases hE : extractLoop destPath entries [] none [] with ⟨s, pv, e⟩
    rw [hE] at hpv
    simp only at hpv
    subst hpv
    rfl

/-- Witness for the amended C2: the accepted `.brew` entry of the mixed
archive passed the filter, and an archive holding only the rejected entry
is aborted with nothing extracted. -/
theorem C2_witness :
    (∃ y ∈ [brewDirEntry, evilEntry], tarFilter y destEx = some brewDirEntry) ∧
    extract [evilEntry] destEx = none := by
  constructor
  · exact (C2_rejected_entry_skipped [brewDirEntry, evilEntry] destEx).1
      "wget" "1.0" [brewDirEntry] (by decide) brewDirEntry (by decide)
  · refine (C2_rejected_entry_skipped [evilEntry] destEx).2.2 ?_
    intro y hy x hx
    rw [List.mem_singleton] at hy
    subst hy
    rw [show tarFilter evilEntry destEx = none from by decide] at hx
    exact absurd hx (by simp)

end Claims

end BrewPy
